import Mathlib

/-!
Verification of the vector-search core of the `rust-opencl-experiments`
repository against its natural-language specification.

Modelling conventions:
* `f32` values are modelled as exact rationals (`ℚ`).  Every operation under
  study either only compares and moves float values (top-k, transposition,
  chunk storage) or evaluates sums and products that are exact at the inputs
  considered, so the rational model is faithful for finite (non-NaN) floats.
* Rust slices and `Vec`s become `List`s; in-place mutation becomes explicit
  state passing.  An out-of-bounds slice access (a Rust panic) is modelled by
  an `Option`/dedicated outcome value, never by a default value, wherever the
  source can actually reach it.
* `usize` arithmetic stays in `ℕ`; the values involved are far below `2^64`
  in every claim, and no wrapping subtraction is reachable under the stated
  hypotheses (it is called out in a comment where relevant).
-/

namespace RustKNN

/-! ### Dot-product kernels (`crates/dot_products/src/reference.rs`) -/

/-- Rust `ReferenceDotProduct::dot_product` (reference.rs lines 24-55).
The loop `for (v, result) in results.iter_mut().enumerate()` overwrites each
entry `v` of `results` with
`query.iter().zip(&data[start_index..]).fold(0.0, |sum, (&q, &r)| sum + r * q)`
where `start_index = v * num_dims`.  The old value of the entry is ignored,
hence the `fun v _ =>`. -/
def referenceDotProduct (query data : List ℚ) (numDims : ℕ) (results : List ℚ) :
    List ℚ :=
  results.mapIdx fun v _ =>
    (query.zip (data.drop (v * numDims))).foldl (fun sum p => sum + p.2 * p.1) 0

/-- Rust `ReferenceDotProductUnrolled::unrolled_dots` (reference.rs lines
135-149): for `unroll in 0..UNROLL_FACTOR`, reads `data[data_start + unroll]`
and `query[query_start + unroll]` and adds their product into `sum[unroll]`.
The slice reads panic when out of bounds, modelled by `none`. -/
def unrolledDots (unrollFactor : ℕ) (query data : List ℚ)
    (queryStart dataStart : ℕ) (sum : List ℚ) : Option (List ℚ) :=
  (List.range unrollFactor).foldlM
    (fun s u =>
      match data.get? (dataStart + u), query.get? (queryStart + u) with
      | some r, some q => some (s.set u (s.getD u 0 + r * q))
      | _, _ => none)
    sum

/-- Index sequence of Rust `(0..n).step_by(step)` for `step > 0`:
`0, step, 2*step, ...` while `< n`. -/
def stepBy (n step : ℕ) : List ℕ :=
  (List.range ((n + step - 1) / step)).map (· * step)

/-- Rust `ReferenceDotProductUnrolled::<UNROLL_FACTOR>::dot_product`
(reference.rs lines 93-124).  For each result position `v` it folds
`unrolled_dots` over `d in (0..num_dims).step_by(UNROLL_FACTOR)` starting from
the zero-initialised array `[0.0; UNROLL_FACTOR]`, then writes
`sum.iter().sum()`. -/
def referenceDotProductUnrolled (unrollFactor : ℕ) (query data : List ℚ)
    (numDims : ℕ) : ℕ → List ℚ → Option (List ℚ)
  | _, [] => some []
  | v, _ :: rest => do
      let sums ← (stepBy numDims unrollFactor).foldlM
        (fun s d => unrolledDots unrollFactor query data d (v * numDims + d) s)
        (List.replicate unrollFactor 0)
      let tail ← referenceDotProductUnrolled unrollFactor query data numDims
        (v + 1) rest
      some (sums.foldl (· + ·) 0 :: tail)

/-! ### Top-K selection (`crates/memchunk/src/topk.rs`) -/

/-- Entries of the top-k search, mirroring `Entry { index, value }` (topk.rs
lines 275-281).  The source keeps two arrays `data` (values) and `indices` of
equal length and swaps them in lockstep (every `data.swap(i, j)` in
`partition_max` and `quickselect_max` is paired with `indices.swap(i, j)`), so
the state is modelled as a single list of `(index, value)` pairs. -/
abbrev QEntry : Type := ℕ × ℚ

/-- Value stored at position `m`; out-of-range positions read as `0`, and
every use below is guarded by a bounds fact. -/
def vAt (l : List QEntry) (m : ℕ) : ℚ := (l.getD m (0, 0)).2

/-- Rust slice `swap(i, j)`; `none` models the out-of-bounds panic. -/
def listSwap {α : Type} (l : List α) (i j : ℕ) : Option (List α) :=
  match l[i]?, l[j]? with
  | some a, some b => some ((l.set i b).set j a)
  | _, _ => none

/-- Rust `partition_max(data, indices, left, right)` (topk.rs lines 223-243):
Lomuto partition with pivot position `right`, scanning `j` over `left..right`;
elements with `data[j] >= data[pivot]` are swapped to the front; finally
position `i` is swapped with the pivot and returned.  The `for` loop is a fold
over the index list `left, …, right-1`; the reads `data[j]` and `data[pivot]`
happen inside the loop body exactly as in the source.  `partitionStep` is one
iteration of the `for j in left..right` loop with state `(data-and-indices,
i)`; `partitionMax` folds it and performs the final `swap(i, pivot)`. -/
def partitionStep (right : ℕ) (s : List QEntry × ℕ) (j : ℕ) :
    Option (List QEntry × ℕ) :=
  match s.1[j]?, s.1[right]? with
  | some a, some p =>
      if p.2 ≤ a.2 then (listSwap s.1 s.2 j).map (fun l' => (l', s.2 + 1))
      else some s
  | _, _ => none

def partitionMax (l : List QEntry) (left right : ℕ) :
    Option (List QEntry × ℕ) := do
  let s ← (List.range' left (right - left)).foldlM (partitionStep right) (l, left)
  let l' ← listSwap s.1 s.2 right
  some (l', s.2)

/-- Outcome of `quickselect_max`: the Rust `loop` either returns (with the
partially sorted arrays as the observable state: the `Entry` return value is
discarded by its only caller `QuickSelect::topk`), or panics on an
out-of-bounds slice access, or -- in the model only -- runs out of fuel.
`outOfFuel` is never produced for the fuel chosen in `quickselectMax`. -/
inductive QsOut where
  | panicked : QsOut
  | outOfFuel : QsOut
  | done : List QEntry → QsOut
deriving DecidableEq

/-- Rust `quickselect_max::<K>` main `loop` (topk.rs lines 204-210): partition
`[left, right]`, then shrink towards the position `K`; return when the pivot
lands exactly at `K`. -/
def quickselectLoop (K : ℕ) : ℕ → List QEntry → ℕ → ℕ → QsOut
  | 0, _, _, _ => .outOfFuel
  | fuel + 1, l, left, right =>
    match partitionMax l left right with
    | none => .panicked
    | some (l', p) =>
      if K < p then quickselectLoop K fuel l' left (p - 1)
      else if p < K then quickselectLoop K fuel l' (p + 1) right
      else .done l'

/-- Rust `quickselect_max::<K>(data, indices)` (topk.rs lines 198-211):
`left = 0`, `right = data.len() - 1`.  The subtraction is `usize`; every use
below has `data.len() ≥ 1`, where it agrees with `ℕ` subtraction.  Fuel
`data.len() + 1` is provably enough for every execution reached below. -/
def quickselectMax (K : ℕ) (l : List QEntry) : QsOut :=
  quickselectLoop K (l.length + 1) l 0 (l.length - 1)

/-- Rust `QuickSelect::topk::<K>(values)` (topk.rs lines 124-130), which the
exported `topk` function (topk.rs line 22) delegates to: pair the values with
indices `0..values.len()`, run `quickselect_max`, then `merge_into` the first
`K` entries (topk.rs lines 176-184; it indexes `vectors[i]` and `indices[i]`
for `i < K`, which panics -- `none` -- when fewer than `K` elements exist). -/
def topkQuickSelect (K : ℕ) (values : List ℚ) : Option (List QEntry) :=
  match quickselectMax K values.enum with
  | .done l' => if K ≤ l'.length then some (l'.take K) else none
  | _ => none

/-! ### VecDb persistence (`crates/vecdb/src/lib.rs`)

The file content is a byte list; `f32` values travel as their 32-bit IEEE-754
bit patterns (`ℕ` below `2^32`), since the write/read path moves bytes and
never interprets the float numerically.  `open_write` truncates the file to
`num_vectors * 4 * num_dimensions + HEADER_SIZE` zero bytes and writes the
header through `tokio::io::AsyncWriteExt::write_u32`, whose documented byte
order is big-endian (`write_u32_le` would be the little-endian variant and is
not used); likewise `write_f32`/`read_f32` of the same extension trait are
big-endian. -/

/-- Big-endian byte serialisation of a 32-bit word, exactly what
`tokio::io::AsyncWriteExt::write_u32`/`write_f32` emit. -/
def be32 (x : ℕ) : List ℕ :=
  [x / 2 ^ 24 % 256, x / 2 ^ 16 % 256, x / 2 ^ 8 % 256, x % 256]

/-- Overwrite `bytes` into `file` starting at byte offset `pos` (the mmap
writer obtained from `mmap.writer(pos)`); callers below always stay within
the mapped length. -/
def writeBytesAt (file : List ℕ) (pos : ℕ) (bytes : List ℕ) : List ℕ :=
  file.take pos ++ bytes ++ file.drop (pos + bytes.length)

/-- Rust `VecDb` (vecdb lib.rs lines 8-13): the mapped file, the two header
quantities and the cursor `pos`. -/
structure VecDb where
  file : List ℕ
  numVectors : ℕ
  numDimensions : ℕ
  pos : ℕ
deriving DecidableEq

/-- Rust `VecDb::open_write` (vecdb lib.rs lines 24-51): create/truncate to
`num_vectors * 4 * num_dimensions + HEADER_SIZE` (fresh mmap pages read as
zero), write `version = 0`, `padding = u32::MAX`, `num_vectors as u32`,
`num_dimensions as u32` through the big-endian `write_u32`, set `pos = 16`. -/
def openWrite (numVectors numDimensions : ℕ) : VecDb :=
  { file := writeBytesAt (List.replicate (numVectors * 4 * numDimensions + 16) 0) 0
      (be32 0 ++ be32 (2 ^ 32 - 1) ++ be32 (numVectors % 2 ^ 32)
        ++ be32 (numDimensions % 2 ^ 32)),
    numVectors := numVectors, numDimensions := numDimensions, pos := 16 }

/-- Rust `VecDb::write_vec` (vecdb lib.rs lines 76-85): `assert_eq!` of the
length against `num_dimensions` (panic modelled as `none`), write each float's
four bytes big-endian (`write_f32`) at the cursor, advance the cursor by
`vec_stride() = 4 * num_dimensions`. -/
def writeVec (db : VecDb) (bits : List ℕ) : Option VecDb :=
  if bits.length = db.numDimensions then
    some { db with file := writeBytesAt db.file db.pos ((bits.map be32).flatten),
                   pos := db.pos + 4 * db.numDimensions }
  else none

/-- Rust `tokio::io::AsyncReadExt::read_f32`: four bytes big-endian; `none`
models the IO error of reading past the end of the mapping. -/
def readF32 (file : List ℕ) (off : ℕ) : Option ℕ :=
  match file[off]?, file[off + 1]?, file[off + 2]?, file[off + 3]? with
  | some b0, some b1, some b2, some b3 =>
      some (((b0 * 256 + b1) * 256 + b2) * 256 + b3)
  | _, _, _, _ => none

/-- Rust `VecDb::read_vec` (vecdb lib.rs lines 101-109): read
`num_dimensions` floats sequentially from a reader opened at `pos`, then
advance `pos` by `vec_stride()`. -/
def readVec (db : VecDb) : Option (List ℕ × VecDb) :=
  ((List.range db.numDimensions).mapM (fun i => readF32 db.file (db.pos + 4 * i))).map
    (fun v => (v, { db with pos := db.pos + 4 * db.numDimensions }))

/-- Loop of Rust `VecDb::read_all_vecs` (vecdb lib.rs lines 117-133).  The
reader is created once at the initial cursor `pos0` and keeps advancing, so
iteration `v` reads bytes at `pos0 + v * 4 * D`; the struct cursor `pos` is
advanced only After the callback returns `true` -- an early `return Ok(v + 1)`
skips the increment for the vector just consumed.  State: current index `v`,
remaining iterations, current struct cursor. -/
def readAllVecsLoop (file : List ℕ) (numDims pos0 : ℕ) (f : ℕ → List ℕ → Bool) :
    ℕ → ℕ → ℕ → Option (ℕ × ℕ)
  | v, 0, pos => some (v, pos)
  | v, r + 1, pos =>
    match (List.range numDims).mapM
        (fun i => readF32 file (pos0 + v * (4 * numDims) + 4 * i)) with
    | none => none
    | some vec =>
      if f v vec then readAllVecsLoop file numDims pos0 f (v + 1) r (pos + 4 * numDims)
      else some (v + 1, pos)

/-- Rust `VecDb::read_all_vecs` (vecdb lib.rs lines 117-133): returns the
`Ok(usize)` count together with the updated `VecDb` state. -/
def readAllVecs (db : VecDb) (f : ℕ → List ℕ → Bool) : Option (ℕ × VecDb) :=
  (readAllVecsLoop db.file db.numDimensions db.pos f 0 db.numVectors db.pos).map
    (fun r => (r.1, { db with pos := r.2 }))

/-- Concrete database for claim C4: `N = 100`, `D = 1`, vector `i` stored as
the four big-endian bytes of the bit pattern `i`, with a 16-byte header. -/
def c4File : List ℕ := List.replicate 16 0 ++ ((List.range 100).map be32).flatten

/-- The opened-for-reading state: cursor just past the header. -/
def c4Db : VecDb :=
  { file := c4File, numVectors := 100, numDimensions := 1, pos := 16 }

/-! ### Chunk manager (`crates/memchunk/src/chunk_manager.rs`,
`crates/memchunk/src/chunks/row_major_chunk_manager.rs`)

`LocalId` is a `NonZeroUsize` in the source; it is modelled as `ℕ` (the
claims never rely on the non-zero restriction).  `ChunkIndex` is a plain
index.  The `IdRegistry` wraps a `BTreeMap`; only `contains_key` and
`insert` (returning the previous value) are used, modelled on an association
list without duplicate keys.  The chunk-size constant
`FixedSizeMemoryChunk::NUM_FLOATS` depends on the `power-of-two-chunks`
feature, so it is carried as a field `chunkNumFloats`; the two build values
are given below.  The `optimistic` feature (which skips the duplicate-id
check) is off in a default build, and the model follows the default. -/

/-- `CHUNK_SIZE_BYTES / 4` with the `power-of-two-chunks` feature
(`33_554_432` bytes). -/
def CHUNK_NUM_FLOATS_POW2 : ℕ := 33554432 / 4

/-- `CHUNK_SIZE_BYTES / 4` without the feature (`33_374_208` bytes). -/
def CHUNK_NUM_FLOATS_DEFAULT : ℕ := 33374208 / 4

/-- Rust `InsertVectorError` (memchunk errors.rs). -/
inductive InsertVectorError where
  | duplicateId : ℕ → InsertVectorError
  | dimensionalityMismatch : (expected actual : ℕ) → InsertVectorError
deriving DecidableEq

/-- `BTreeMap::get` on the association-list model. -/
def regGet (reg : List (ℕ × ℕ)) (id : ℕ) : Option ℕ :=
  (reg.find? (fun e => e.1 == id)).map Prod.snd

/-- Rust `IdRegistry::contains_key` (`BTreeMap::contains_key`). -/
def regContains (reg : List (ℕ × ℕ)) (id : ℕ) : Bool :=
  (regGet reg id).isSome

/-- Rust `IdRegistry::insert` (`BTreeMap::insert`): stores the value and
returns the previous one. -/
def regInsert (reg : List (ℕ × ℕ)) (id v : ℕ) : List (ℕ × ℕ) × Option ℕ :=
  match regGet reg id with
  | some old => (reg.map (fun e => if e.1 == id then (id, v) else e), some old)
  | none => (reg ++ [(id, v)], none)

/-- Rust `IndexVectorAssignment` (index_vector_assignments.rs): per-chunk
slot table with its occupancy count. -/
structure IndexVectorAssignment where
  count : ℕ
  assignments : List (Option ℕ)
deriving DecidableEq

/-- Rust `IndexVectorAssignment::new(num_vecs)`. -/
def IndexVectorAssignment.new (numVecs : ℕ) : IndexVectorAssignment :=
  { count := 0, assignments := List.replicate numVecs none }

/-- Rust `IndexVectorAssignment::replace(index, value)`: overwrite the slot,
adjust `count` by the occupancy transition, return the previous value.  The
`Vec` indexing is total here; every call site below stays in bounds. -/
def IndexVectorAssignment.replace (a : IndexVectorAssignment) (index : ℕ)
    (value : Option ℕ) : IndexVectorAssignment × Option ℕ :=
  let previous := a.assignments.getD index none
  ({ count :=
      if value.isSome && !previous.isSome then a.count + 1
      else if !value.isSome && previous.isSome then a.count - 1
      else a.count,
     assignments := a.assignments.set index value }, previous)

/-- Rust `IndexVectorAssignment::is_full`. -/
def IndexVectorAssignment.isFull (a : IndexVectorAssignment) : Bool :=
  a.count == a.assignments.length

/-- Rust `BaseChunkManager` (chunk_manager.rs lines 37-47) with the
build-time chunk size as an explicit field. -/
structure BaseChunkManager where
  chunkNumFloats : ℕ
  numDims : ℕ
  numVecsPerChunk : ℕ
  registry : List (ℕ × ℕ)
  chunks : List (List ℚ)
  assignments : List IndexVectorAssignment
deriving DecidableEq

/-- Rust `BaseChunkManager::new(dims, access_hint)` (chunk_manager.rs lines
57-68): one zeroed chunk, one empty assignment row,
`num_vecs_per_chunk = NUM_FLOATS / dims`. -/
def BaseChunkManager.new (chunkNumFloats dims : ℕ) : BaseChunkManager :=
  { chunkNumFloats := chunkNumFloats, numDims := dims,
    numVecsPerChunk := chunkNumFloats / dims,
    registry := [],
    chunks := [List.replicate chunkNumFloats 0],
    assignments := [IndexVectorAssignment.new (chunkNumFloats / dims)] }

/-- Rust `BaseChunkManager::max_vecs` (chunk_manager.rs lines 74-76):
`chunks.len() * num_vecs_per_chunk`. -/
def BaseChunkManager.maxVecs (m : BaseChunkManager) : ℕ :=
  m.chunks.length * m.numVecsPerChunk

/-- Rust `BaseChunkManager::ensure_chunk_with_capacity` (chunk_manager.rs
lines 152-164): reuse the last chunk unless its assignment row is full,
otherwise push a fresh chunk and a fresh assignment row.  Returns the state,
the selected index and whether a new chunk was allocated
(`SelectedChunk::AllocatedNew`). -/
def ensureChunkWithCapacity (m : BaseChunkManager) :
    BaseChunkManager × ℕ × Bool :=
  let chunkIdx := m.chunks.length - 1
  if !(m.assignments.getD chunkIdx ⟨0, []⟩).isFull then (m, chunkIdx, false)
  else
    let m' := { m with
      chunks := m.chunks ++ [List.replicate m.chunkNumFloats 0]
      assignments := m.assignments
        ++ [IndexVectorAssignment.new m.numVecsPerChunk] }
    (m', m'.chunks.length - 1, true)

/-- Rust `BaseChunkManager::register_vector` (chunk_manager.rs lines 84-128)
in the default (non-`optimistic`) build: reject an already-registered id
before touching anything; otherwise pick a chunk, register the id, fill the
next free slot and run the caller's write closure on the chunk.  The inner
`Some(previous_index)` branch (re-inserting the previous value and erroring)
is unreachable here because of the leading `contains_key` check, but is
modelled as written. -/
def registerVector (m : BaseChunkManager) (id : ℕ)
    (writeFn : ℕ → List ℚ → List ℚ) : BaseChunkManager × Option InsertVectorError :=
  if regContains m.registry id then (m, some (.duplicateId id))
  else
    let res := ensureChunkWithCapacity m
    let m₁ := res.1
    let chunkIdx := res.2.1
    let ins := regInsert m₁.registry id chunkIdx
    match ins.2 with
    | some previousIndex =>
        ({ m₁ with registry := (regInsert ins.1 id previousIndex).1 },
          some (.duplicateId id))
    | none =>
        let asg := m₁.assignments.getD chunkIdx ⟨0, []⟩
        let targetSlot := asg.count
        let rep := asg.replace targetSlot (some id)
        let chunk := m₁.chunks.getD chunkIdx []
        ({ m₁ with
            registry := ins.1
            assignments := m₁.assignments.set chunkIdx rep.1
            chunks := m₁.chunks.set chunkIdx (writeFn targetSlot chunk) },
          none)

/-- Rust `<[f32]>::copy_from_slice` into the sub-slice
`[start, start + src.length)` of `data`. -/
def copyFromSlice (data : List ℚ) (start : ℕ) (src : List ℚ) : List ℚ :=
  data.take start ++ src ++ data.drop (start + src.length)

/-- Rust `RowMajorChunkManager::insert_vector` (row_major_chunk_manager.rs
lines 38-65): length check first (`DimensionalityMismatch`), then
`register_vector` with the row-major write closure
`data[index * num_dims ..][..num_dims].copy_from_slice(vector)`. -/
def insertVector (m : BaseChunkManager) (id : ℕ) (vector : List ℚ) :
    BaseChunkManager × Option InsertVectorError :=
  if vector.length ≠ m.numDims then
    (m, some (.dimensionalityMismatch m.numDims vector.length))
  else
    registerVector m id (fun index chunk =>
      copyFromSlice chunk (index * m.numDims) vector)

/-- Concrete manager for the C6 witness: chunk size 32 floats, `D = 16`
(so two vectors per chunk), filled with two vectors -- its single chunk is
full. -/
def c6Manager : BaseChunkManager :=
  (insertVector (insertVector (BaseChunkManager.new 32 16) 1
      (List.replicate 16 1)).1 2 (List.replicate 16 1)).1

/-! ### Any-size memory chunk
(`crates/memchunk/src/chunks/any_size_memory_chunk.rs`)

`Memory` (crate `alloc_madvise`) is an untyped allocation created with
`Memory::allocate(num_bytes, …)`; its `len()` is the allocation size in
bytes, while the `&[f32]` view holds a quarter as many elements.  The model
keeps the float view `data` and recovers `Memory::len` as `4 · data.length`
(`dataLen` below); for chunks built by `new`, `data.length = N · D`, so under
either reading of `len()` (bytes or floats) the clamp bound in
`use_num_vecs` is at least `N · D ≥ N` -- the counterexample below holds for
both readings. -/

/-- Rust `AnySizeMemoryChunk` (any_size_memory_chunk.rs lines 10-19). -/
structure AnySizeMemoryChunk where
  numVecs : ℕ
  virtNumVecs : ℕ
  numDims : ℕ
  data : List ℚ
deriving DecidableEq

/-- Rust `Memory::len()` of the chunk's allocation:
`num_bytes = num_elems * size_of::<f32>()`. -/
def AnySizeMemoryChunk.dataLen (c : AnySizeMemoryChunk) : ℕ := 4 * c.data.length

/-- Rust `AnySizeMemoryChunk::new(num_vectors, num_dimensions, access_hint)`
(lines 31-53): asserts `num_dimensions % 16 == 0` (panic modelled by
`none`), allocates `N·D·4` zeroed bytes, `virt_num_vecs = num_vecs = N`. -/
def AnySizeMemoryChunk.new (numVectors numDimensions : ℕ) :
    Option AnySizeMemoryChunk :=
  if numDimensions % 16 = 0 then
    some { numVecs := numVectors, virtNumVecs := numVectors,
           numDims := numDimensions,
           data := List.replicate (numVectors * numDimensions) 0 }
  else none

/-- Rust `AnySizeMemoryChunk::use_num_vecs(num_vecs)` (lines 69-74):
`virt_num_vecs = match *num_vecs { 0 => self.num_vecs, x => x.min(self.data.len()) }`.
Note the clamp is against `self.data.len()` -- the `Memory` allocation
length -- not against `self.num_vecs`. -/
def useNumVecs (c : AnySizeMemoryChunk) (numVecs : ℕ) : AnySizeMemoryChunk :=
  { c with virtNumVecs := if numVecs = 0 then c.numVecs
      else min numVecs c.dataLen }

/-- Model of the external `transpose::transpose(input, output, input_width,
input_height)` call (crate `transpose`): `output[x * input_height + y] =
input[y * input_width + x]` for `x < input_width`, `y < input_height`.  This
orientation is pinned down by the source's own debug assertions in
`as_transposed` (`dst[0] == src[0]` and `dst[num_vecs] == src[1]`). -/
def transposeList (src : List ℚ) (width height : ℕ) : List ℚ :=
  (List.range (width * height)).map
    (fun k => src.getD ((k % height) * width + (k / height)) 0)

/-- Rust `AnySizeMemoryChunk::as_transposed(hint)` (lines 120-138): allocate
a sibling with the SAME `(num_vecs, num_dims)` fields, then
`transpose(src, dst, self.num_dims, self.num_vecs)` over the full buffer. -/
def asTransposed (c : AnySizeMemoryChunk) : AnySizeMemoryChunk :=
  { numVecs := c.numVecs, virtNumVecs := c.numVecs, numDims := c.numDims,
    data := transposeList c.data c.numDims c.numVecs }

/-- A concrete non-square chunk: `N = 2` vectors of `D = 16` dimensions with
pairwise distinct entries. -/
def c8Chunk : AnySizeMemoryChunk :=
  { numVecs := 2, virtNumVecs := 2, numDims := 16,
    data := [0, 1, 2, 3, 4, 5, 6, 7, 8, 9, 10, 11, 12, 13, 14, 15,
             16, 17, 18, 19, 20, 21, 22, 23, 24, 25, 26, 27, 28, 29, 30, 31] }

/-- A concrete square chunk (`N = D = 2`) for the C8 witness. -/
def c8Square : AnySizeMemoryChunk :=
  { numVecs := 2, virtNumVecs := 2, numDims := 2, data := [0, 1, 2, 3] }

/-! ### Theorems -/

/-- Helper: folding the product accumulator over a zip equals the prefix sum
of pointwise products. -/
theorem zip_foldl_dot (q : List ℚ) : ∀ (l : List ℚ) (a : ℚ),
    (q.zip l).foldl (fun sum p => sum + p.2 * p.1) a
      = a + ∑ i in Finset.range (min q.length l.length), q.getD i 0 * l.getD i 0 := by
  induction q with
  | nil => intro l a; simp
  | cons x q ih =>
    intro l a
    cases l with
    | nil => simp
    | cons y l =>
      simp only [List.zip_cons_cons, List.foldl_cons, List.length_cons]
      rw [ih]
      rw [Nat.succ_min_succ, Finset.sum_range_succ']
      simp [List.getD]
      ring

/-- Helper: indexing a `mapIdx`. -/
theorem mapIdx_getElem? {α β : Type} (f : ℕ → α → β) (l : List α) (v : ℕ) :
    (l.mapIdx f)[v]? = (l[v]?).map (f v) := by
  induction l generalizing f v with
  | nil => simp
  | cons x l ih =>
    cases v with
    | zero => simp [List.mapIdx_cons]
    | succ v => simp [List.mapIdx_cons, ih]

/-- Helper: the generic post-condition of `ReferenceDotProduct::dot_product`:
under the documented length pre-conditions (they are `debug_assert_eq!`s in the
source), entry `v` of the output is the inner product of the query with the
`v`-th stored vector. -/
theorem referenceDotProduct_spec (query data results : List ℚ) (D N : ℕ)
    (hq : query.length = D) (hd : data.length = N * D) (hr : results.length = N)
    (v : ℕ) (hv : v < N) :
    (referenceDotProduct query data D results).getD v 0
      = ∑ d in Finset.range D, query.getD d 0 * data.getD (v * D + d) 0 := by
  have hlen : D ≤ (data.drop (v * D)).length := by
    rw [List.length_drop, hd]
    have h1 : v + 1 ≤ N := hv
    calc D = 1 * D := (one_mul D).symm
    _ ≤ (N - v) * D := Nat.mul_le_mul_right D (by omega)
    _ = N * D - v * D := Nat.sub_mul N v D
  have hvlt : v < results.length := by omega
  rw [List.getD_eq_getElem?_getD, referenceDotProduct, mapIdx_getElem?,
    List.getElem?_eq_getElem hvlt]
  simp only [Option.map_some', Option.getD_some]
  rw [zip_foldl_dot, hq, min_eq_left hlen, zero_add]
  refine Finset.sum_congr rfl fun d hd => ?_
  rw [List.getD_eq_getElem?_getD (data.drop (v * D)), List.getElem?_drop,
    List.getD_eq_getElem?_getD data]

/-- Claim C1: the dot-product kernels set `results[v]` to
`Σ_{d<D} query[d]·data[v·D+d]` for every `v < N` (first conjunct, for
`ReferenceDotProduct`), and on the concrete input `q = [1,2,3]`,
`M = [[4,−5,6],[4,−5,6],[0,0,0],[1,1,1]]` both `ReferenceDotProduct` and
`ReferenceDotProductUnrolled::<3>` (the unroll factor the repository's own
test uses for this dimensionality) return exactly `[12, 12, 0, 6]`. -/
theorem c1_dot_product_kernels :
    (∀ (query data results : List ℚ) (D N : ℕ),
        query.length = D → data.length = N * D → results.length = N →
        ∀ v < N,
          (referenceDotProduct query data D results).getD v 0
            = ∑ d in Finset.range D, query.getD d 0 * data.getD (v * D + d) 0)
    ∧ referenceDotProduct [1, 2, 3] [4, -5, 6, 4, -5, 6, 0, 0, 0, 1, 1, 1] 3
        [0, 0, 0, 0] = [12, 12, 0, 6]
    ∧ referenceDotProductUnrolled 3 [1, 2, 3] [4, -5, 6, 4, -5, 6, 0, 0, 0, 1, 1, 1]
        3 0 [0, 0, 0, 0] = some [12, 12, 0, 6] := by
  refine ⟨fun query data results D N hq hd hr v hv =>
    referenceDotProduct_spec query data results D N hq hd hr v hv, ?_, ?_⟩
  · norm_num [referenceDotProduct, List.mapIdx_cons, List.foldl]
  · norm_num [referenceDotProductUnrolled, stepBy, unrolledDots, List.range_succ,
      List.foldlM, List.get?, List.replicate, List.foldl]

/-- Witness for C1: the universally quantified conjunct applied at the
concrete 4×3 example, result row 3. -/
theorem c1_dot_product_kernels_witness :
    (referenceDotProduct [1, 2, 3] [4, -5, 6, 4, -5, 6, 0, 0, 0, 1, 1, 1] 3
        [0, 0, 0, 0]).getD 3 0
      = ∑ d in Finset.range 3,
          ([1, 2, 3] : List ℚ).getD d 0
            * ([4, -5, 6, 4, -5, 6, 0, 0, 0, 1, 1, 1] : List ℚ).getD (3 * 3 + d) 0 :=
  c1_dot_product_kernels.1 [1, 2, 3] [4, -5, 6, 4, -5, 6, 0, 0, 0, 1, 1, 1]
    [0, 0, 0, 0] 3 4 (by decide) (by decide) (by decide) 3 (by decide)

/-- Helper: replacing an element and consing the old one in front is a
permutation of consing the new element onto the original list. -/
theorem cons_set_perm {α : Type} :
    ∀ (t : List α) (m : ℕ) (h : m < t.length) (x : α),
      List.Perm (t.get ⟨m, h⟩ :: t.set m x) (x :: t) := by
  intro t
  induction t with
  | nil => intro m h x; simp at h
  | cons y s ih =>
    intro m h x
    cases m with
    | zero => simpa using List.Perm.swap x y s
    | succ m =>
      have hm : m < s.length := by simpa using h
      have step1 : List.Perm (s.get ⟨m, hm⟩ :: y :: s.set m x)
          (y :: s.get ⟨m, hm⟩ :: s.set m x) := List.Perm.swap y _ _
      have step2 : List.Perm (y :: s.get ⟨m, hm⟩ :: s.set m x) (y :: x :: s) :=
        List.Perm.cons y (ih m hm x)
      simpa using (step1.trans step2).trans (List.Perm.swap x y s)

/-- Helper: a two-sided `set` swap permutes the list. -/
theorem set_set_perm {α : Type} :
    ∀ (l : List α) (i j : ℕ) (hi : i < l.length) (hj : j < l.length),
      List.Perm ((l.set i (l.get ⟨j, hj⟩)).set j (l.get ⟨i, hi⟩)) l := by
  intro l
  induction l with
  | nil => intro i j hi hj; simp at hi
  | cons x t ih =>
    intro i j hi hj
    cases i with
    | zero =>
      cases j with
      | zero => simp
      | succ m =>
        have hm : m < t.length := by simpa using hj
        simpa using cons_set_perm t m hm x
    | succ k =>
      cases j with
      | zero =>
        have hk : k < t.length := by simpa using hi
        simpa using cons_set_perm t k hk x
      | succ m =>
        have hk : k < t.length := by simpa using hi
        have hm : m < t.length := by simpa using hj
        simpa using List.Perm.cons x (ih k m hk hm)

/-- Helper: full description of a successful `listSwap`. -/
theorem listSwap_spec {α : Type} (l : List α) (i j : ℕ) (a b : α)
    (ha : l[i]? = some a) (hb : l[j]? = some b) :
    ∃ l', listSwap l i j = some l' ∧ l'.length = l.length ∧ List.Perm l' l ∧
      l'[i]? = some b ∧ l'[j]? = some a ∧
      ∀ m, m ≠ i → m ≠ j → l'[m]? = l[m]? := by
  have hi : i < l.length := by
    by_contra h
    rw [List.getElem?_eq_none (by omega)] at ha
    exact Option.noConfusion ha
  have hj : j < l.length := by
    by_contra h
    rw [List.getElem?_eq_none (by omega)] at hb
    exact Option.noConfusion hb
  have hga : l[i] = a := by
    have h2 := List.getElem?_eq_getElem hi
    rw [ha] at h2
    exact Option.some_injective _ h2.symm
  have hgb : l[j] = b := by
    have h2 := List.getElem?_eq_getElem hj
    rw [hb] at h2
    exact Option.some_injective _ h2.symm
  refine ⟨(l.set i b).set j a, ?_, by simp, ?_, ?_, ?_, ?_⟩
  · rw [listSwap, ha, hb]
  · have := set_set_perm l i j hi hj
    simpa [List.get_eq_getElem, hga, hgb] using this
  · by_cases hij : i = j
    · subst hij
      have : a = b := by rw [← hga, ← hgb]
      subst this
      exact List.getElem?_set_self (by simpa using hi)
    · rw [List.getElem?_set_ne (Ne.symm hij), List.getElem?_set_self (by simpa using hi)]
  · exact List.getElem?_set_self (by simpa using hj)
  · intro m hmi hmj
    rw [List.getElem?_set_ne (Ne.symm hmj), List.getElem?_set_ne (Ne.symm hmi)]

/-- Helper: `vAt` through `getElem?`. -/
theorem vAt_def (l : List QEntry) (m : ℕ) : vAt l m = (l[m]?.getD (0, 0)).2 := by
  rw [vAt, List.getD_eq_getElem?_getD]

/-- Helper: `vAt` at an in-range position. -/
theorem vAt_getElem (l : List QEntry) (m : ℕ) (h : m < l.length) :
    vAt l m = (l[m]).2 := by
  rw [vAt_def, List.getElem?_eq_getElem h]
  simp

/-- Helper: invariant-carrying specification of the `partition_max` scan loop:
`pv` is the pivot value `data[right]`, positions `[left, i)` hold values
`≥ pv`, positions `[i, j)` hold values `< pv`.  The conclusions describe the
loop exit state: positions below `i` and from `right` upward are untouched,
positions in `[i, right)` are filled from positions in `[i, right)`, and the
two value-invariants hold at the final fill pointer `i₁`. -/
theorem partitionFold_spec (right left : ℕ) (pv : ℚ) :
    ∀ (d : ℕ) (l : List QEntry) (i j : ℕ),
      right - j = d →
      left ≤ i → i ≤ j → j ≤ right → right < l.length →
      vAt l right = pv →
      (∀ m, left ≤ m → m < i → pv ≤ vAt l m) →
      (∀ m, i ≤ m → m < j → vAt l m < pv) →
      ∃ l₁ i₁,
        (List.range' j (right - j)).foldlM (partitionStep right) (l, i)
            = some (l₁, i₁) ∧
          i ≤ i₁ ∧ i₁ ≤ right ∧ l₁.length = l.length ∧ List.Perm l₁ l ∧
          (∀ m, m < i → l₁[m]? = l[m]?) ∧
          (∀ m, right ≤ m → l₁[m]? = l[m]?) ∧
          (∀ m, i ≤ m → m < right →
            ∃ m', i ≤ m' ∧ m' < right ∧ l₁[m]? = l[m']?) ∧
          (∀ m, left ≤ m → m < i₁ → pv ≤ vAt l₁ m) ∧
          (∀ m, i₁ ≤ m → m < right → vAt l₁ m < pv) := by
  intro d
  induction d with
  | zero =>
    intro l i j hd hli hij hjr hr hpv inv1 inv2
    have hj : j = right := by omega
    subst hj
    refine ⟨l, i, ?_, le_refl i, hij, rfl, List.Perm.refl l, fun m _ => rfl,
      fun m _ => rfl, fun m hm hmr => ⟨m, hm, hmr, rfl⟩, inv1, inv2⟩
    simp [hd]
  | succ d ih =>
    intro l i j hd hli hij hjr hr hpv inv1 inv2
    have hjr' : j < right := by omega
    have hjlen : j < l.length := by omega
    have hilen : i < l.length := by omega
    have hrange : List.range' j (right - j)
        = j :: List.range' (j + 1) (right - (j + 1)) := by
      have h : right - j = (right - (j + 1)) + 1 := by omega
      rw [h, List.range'_succ]
    have hA : l[j]? = some l[j] := List.getElem?_eq_getElem hjlen
    have hP : l[right]? = some l[right] := List.getElem?_eq_getElem hr
    have hpv2 : (l[right]).2 = pv := by
      rw [vAt_def, hP] at hpv
      simpa using hpv
    have hstep : partitionStep right (l, i) j
        = (if (l[right]).2 ≤ (l[j]).2 then
            (listSwap l i j).map (fun l' => (l', i + 1)) else some (l, i)) := by
      simp only [partitionStep, hA, hP]
    rw [hrange, List.foldlM_cons]
    by_cases hcmp : (l[right]).2 ≤ (l[j]).2
    · obtain ⟨l₁, hswap, hlen₁, hperm₁, hi₁, hj₁, hother₁⟩ :=
        listSwap_spec l i j (l[i]) (l[j]) (List.getElem?_eq_getElem hilen) hA
      have hpvj : pv ≤ (l[j]).2 := hpv2 ▸ hcmp
      have inv1' : ∀ m, left ≤ m → m < i + 1 → pv ≤ vAt l₁ m := by
        intro m hlm hm
        by_cases hmi : m = i
        · subst hmi
          rw [vAt_def, hi₁]
          simpa using hpvj
        · have hmi' : m < i := by omega
          rw [vAt_def, hother₁ m hmi (by omega), ← vAt_def]
          exact inv1 m hlm hmi'
      have inv2' : ∀ m, i + 1 ≤ m → m < j + 1 → vAt l₁ m < pv := by
        intro m him hm
        by_cases hmj : m = j
        · subst hmj
          have hij' : i < m := by omega
          have h2 := inv2 i (le_refl i) hij'
          rw [vAt_getElem l i hilen] at h2
          rw [vAt_def, hj₁]
          simpa using h2
        · rw [vAt_def, hother₁ m (by omega) hmj, ← vAt_def]
          exact inv2 m (by omega) (by omega)
      have hpv₁ : vAt l₁ right = pv := by
        rw [vAt_def, hother₁ right (by omega) (by omega), ← vAt_def]
        exact hpv
      obtain ⟨l₂, i₂, hfold, hi2a, hi2b, hlen₂, hperm₂, hlo, hhi, horigin,
        hinv1f, hinv2f⟩ :=
        ih l₁ (i + 1) (j + 1) (by omega) (by omega) (by omega) (by omega)
          (by omega) hpv₁ inv1' inv2'
      refine ⟨l₂, i₂, ?_, by omega, hi2b, by rw [hlen₂, hlen₁],
        hperm₂.trans hperm₁, ?_, ?_, ?_, hinv1f, hinv2f⟩
      · rw [hstep, if_pos hcmp, hswap]
        simpa using hfold
      · intro m hm
        rw [hlo m (by omega), hother₁ m (by omega) (by omega)]
      · intro m hm
        rw [hhi m (by omega), hother₁ m (by omega) (by omega)]
      · intro m him hmr
        by_cases hmi : m = i
        · subst hmi
          exact ⟨j, hij, hjr', by rw [hlo m (by omega), hi₁, hA]⟩
        · obtain ⟨m', hm'1, hm'2, hm'eq⟩ := horigin m (by omega) hmr
          by_cases hm'j : m' = j
          · subst hm'j
            exact ⟨i, le_refl i, by omega,
              by rw [hm'eq, hj₁, List.getElem?_eq_getElem hilen]⟩
          · exact ⟨m', by omega, hm'2, by rw [hm'eq, hother₁ m' (by omega) hm'j]⟩
    · have inv2' : ∀ m, i ≤ m → m < j + 1 → vAt l m < pv := by
        intro m him hm
        by_cases hmj : m = j
        · subst hmj
          rw [vAt_getElem l m hjlen, ← hpv2]
          exact lt_of_not_le hcmp
        · exact inv2 m him (by omega)
      obtain ⟨l₂, i₂, hfold, hi2a, hi2b, hlen₂, hperm₂, hlo, hhi, horigin,
        hinv1f, hinv2f⟩ :=
        ih l i (j + 1) (by omega) hli (by omega) (by omega) hr hpv inv1 inv2'
      refine ⟨l₂, i₂, ?_, hi2a, hi2b, hlen₂, hperm₂, hlo, hhi, ?_, hinv1f,
        hinv2f⟩
      · rw [hstep, if_neg hcmp]
        simpa using hfold
      · intro m him hmr
        obtain ⟨m', hm'1, hm'2, hm'eq⟩ := horigin m him hmr
        exact ⟨m', hm'1, hm'2, hm'eq⟩

/-- Helper: equal `getElem?` results give equal `vAt` values. -/
theorem vAt_congr {l₁ l₂ : List QEntry} {m₁ m₂ : ℕ} (h : l₁[m₁]? = l₂[m₂]?) :
    vAt l₁ m₁ = vAt l₂ m₂ := by
  rw [vAt_def, vAt_def, h]

/-- Helper: full specification of a successful `partition_max` call on the
range `[left, right]` with `right` in bounds: the returned pivot position `p`
lies in `[left, right]`, positions outside `[left, right]` are untouched,
positions inside are filled from inside, values in `[left, p)` are `≥` the
pivot value, values in `(p, right]` are `<` it, and the pivot value sits at
`p`. -/
theorem partitionMax_spec (l : List QEntry) (left right : ℕ) (pv : ℚ)
    (hlr : left ≤ right) (hr : right < l.length) (hpv : vAt l right = pv) :
    ∃ l' p, partitionMax l left right = some (l', p) ∧
      left ≤ p ∧ p ≤ right ∧ l'.length = l.length ∧ List.Perm l' l ∧
      (∀ m, m < left → l'[m]? = l[m]?) ∧
      (∀ m, right < m → l'[m]? = l[m]?) ∧
      (∀ m, left ≤ m → m ≤ right →
        ∃ m', left ≤ m' ∧ m' ≤ right ∧ l'[m]? = l[m']?) ∧
      (∀ m, left ≤ m → m < p → pv ≤ vAt l' m) ∧
      (∀ m, p < m → m ≤ right → vAt l' m < pv) ∧
      vAt l' p = pv := by
  obtain ⟨l₁, i₁, hfold, hia, hib, hlen₁, hperm₁, hlo, hhi, horigin, hinv1,
    hinv2⟩ :=
    partitionFold_spec right left pv (right - left) l left left rfl
      (le_refl left) (le_refl left) hlr hr hpv
      (fun m h1 h2 => absurd h1 (by omega))
      (fun m h1 h2 => absurd h1 (by omega))
  have hi₁lt : i₁ < l₁.length := by omega
  have hrlt : right < l₁.length := by omega
  obtain ⟨l₂, hswap, hlen₂, hperm₂, hswA, hswB, hswother⟩ :=
    listSwap_spec l₁ i₁ right (l₁.get ⟨i₁, hi₁lt⟩) (l₁.get ⟨right, hrlt⟩)
      (List.getElem?_eq_getElem hi₁lt) (List.getElem?_eq_getElem hrlt)
  have hpv₁ : vAt l₁ right = pv := by
    rw [vAt_congr (hhi right (le_refl right))]
    exact hpv
  refine ⟨l₂, i₁, ?_, hia, hib, by rw [hlen₂, hlen₁], hperm₂.trans hperm₁,
    ?_, ?_, ?_, ?_, ?_, ?_⟩
  · simp only [partitionMax, hfold, Option.bind_eq_bind, Option.some_bind,
      hswap]
  · intro m hm
    rw [hswother m (by omega) (by omega), hlo m (by omega)]
  · intro m hm
    rw [hswother m (by omega) (by omega), hhi m (by omega)]
  · intro m hml hmr
    by_cases hmi : m = i₁
    · subst hmi
      refine ⟨right, by omega, le_refl right, ?_⟩
      rw [hswA]
      have h3 : l₁[right]? = l[right]? := hhi right (le_refl right)
      rw [List.getElem?_eq_getElem (show right < l₁.length by omega)] at h3
      exact h3
    · by_cases hmr' : m = right
      · subst hmr'
        by_cases hir : i₁ = m
        · exact absurd hir.symm hmi
        · obtain ⟨m', hm'1, hm'2, hm'eq⟩ := horigin i₁ hia (by omega)
          refine ⟨m', by omega, by omega, ?_⟩
          rw [hswB]
          rw [List.getElem?_eq_getElem (show i₁ < l₁.length by omega)] at hm'eq
          exact hm'eq
      · rw [hswother m hmi hmr']
        have hmr2 : m < right := by omega
        obtain ⟨m', hm'1, hm'2, hm'eq⟩ := horigin m hml hmr2
        exact ⟨m', by omega, by omega, hm'eq⟩
  · intro m hml hmi
    rw [vAt_congr (hswother m (by omega) (by omega))]
    exact hinv1 m hml hmi
  · intro m hmi hmr
    by_cases hmr' : m = right
    · subst hmr'
      have h4 := hinv2 i₁ (le_refl i₁) (by omega)
      rw [vAt_getElem l₁ i₁ (by omega)] at h4
      rw [vAt_def, hswB]
      simpa using h4
    · rw [vAt_congr (hswother m (by omega) hmr')]
      exact hinv2 m (by omega) (by omega)
  · have h5 : (l₁.get ⟨right, hrlt⟩).2 = pv := by
      rw [List.get_eq_getElem, ← vAt_getElem l₁ right hrlt]
      exact hpv₁
    rw [vAt_def, hswA]
    simpa using h5

/-- Helper: the `quickselect_max` loop terminates in `done` whenever the
target position `K` lies strictly inside the array (`left ≤ K ≤ right <
len`), with the final array a permutation of the input in which every value at
a position `≥ K` is `≤` every value at a position `< K`.  The two `outer`
hypotheses say positions left of `left` already hold values `≥` everything
from `left` on, and positions right of `right` hold values `≤` everything up
to `right`. -/
theorem quickselectLoop_done (K n : ℕ) :
    ∀ (fuel : ℕ) (l : List QEntry) (left right : ℕ),
      l.length = n → left ≤ K → K ≤ right → right < n → right - left < fuel →
      (∀ m m', m < left → left ≤ m' → m' < n → vAt l m' ≤ vAt l m) →
      (∀ m m', right < m → m < n → m' ≤ right → vAt l m ≤ vAt l m') →
      ∃ l', quickselectLoop K fuel l left right = .done l' ∧ l'.length = n ∧
        List.Perm l' l ∧
        (∀ i m, i < K → K ≤ m → m < n → vAt l' m ≤ vAt l' i) := by
  intro fuel
  induction fuel with
  | zero =>
    intro l left right _ _ _ _ hf
    omega
  | succ fuel ih =>
    intro l left right hlen hlK hKr hrn hf outer1 outer2
    obtain ⟨l₁, p, hpm, hpl, hpr, hlen₁, hperm₁, hlo, hhi, horigin, hC, hD,
      hE⟩ :=
      partitionMax_spec l left right (vAt l right) (by omega) (by omega) rfl
    have hq : quickselectLoop K (fuel + 1) l left right
        = (if K < p then quickselectLoop K fuel l₁ left (p - 1)
           else if p < K then quickselectLoop K fuel l₁ (p + 1) right
           else .done l₁) := by
      simp only [quickselectLoop, hpm]
    have originV : ∀ m, left ≤ m → m ≤ right →
        ∃ m', left ≤ m' ∧ m' ≤ right ∧ vAt l₁ m = vAt l m' := by
      intro m h1 h2
      obtain ⟨m', hA, hB, hEq⟩ := horigin m h1 h2
      exact ⟨m', hA, hB, vAt_congr hEq⟩
    by_cases h1 : K < p
    · have outer1' : ∀ m m', m < left → left ≤ m' → m' < n →
          vAt l₁ m' ≤ vAt l₁ m := by
        intro m m' hm hm'1 hm'2
        rw [vAt_congr (hlo m hm)]
        by_cases hm'r : m' ≤ right
        · obtain ⟨m'', hA, hB, hEq⟩ := originV m' hm'1 hm'r
          rw [hEq]
          exact outer1 m m'' hm hA (by omega)
        · rw [vAt_congr (hhi m' (by omega))]
          exact outer1 m m' hm hm'1 hm'2
      have outer2' : ∀ m m', (p - 1) < m → m < n → m' ≤ (p - 1) →
          vAt l₁ m ≤ vAt l₁ m' := by
        intro m m' hm1 hm2 hm3
        have hmp : p ≤ m := by omega
        have hub : m ≤ right → vAt l₁ m ≤ vAt l right := by
          intro hmr
          by_cases hmp' : m = p
          · subst hmp'; rw [hE]
          · exact le_of_lt (hD m (by omega) hmr)
        by_cases hm'l : m' < left
        · rw [vAt_congr (hlo m' hm'l)]
          by_cases hmr : m ≤ right
          · obtain ⟨m'', hA, hB, hEq⟩ := originV m (by omega) hmr
            rw [hEq]
            exact outer1 m' m'' hm'l hA (by omega)
          · rw [vAt_congr (hhi m (by omega))]
            exact outer2 m m' (by omega) hm2 (by omega)
        · have hm'C : vAt l right ≤ vAt l₁ m' := hC m' (by omega) (by omega)
          by_cases hmr : m ≤ right
          · exact le_trans (hub hmr) hm'C
          · rw [vAt_congr (hhi m (by omega))]
            obtain ⟨m'', hA, hB, hEq⟩ := originV m' (by omega) (by omega)
            rw [hEq]
            exact outer2 m m'' (by omega) hm2 hB
      obtain ⟨l₂, hrec, hlen₂, hperm₂, hfin⟩ :=
        ih l₁ left (p - 1) (by omega) hlK (by omega) (by omega) (by omega)
          outer1' outer2'
      rw [hq, if_pos h1]
      exact ⟨l₂, hrec, hlen₂, hperm₂.trans hperm₁, hfin⟩
    · by_cases h2 : p < K
      · have outer1' : ∀ m m', m < p + 1 → p + 1 ≤ m' → m' < n →
            vAt l₁ m' ≤ vAt l₁ m := by
          intro m m' hm hm'1 hm'2
          have hlbm : m < left → vAt l₁ m = vAt l m := fun h =>
            vAt_congr (hlo m h)
          have hlbm' : left ≤ m → vAt l right ≤ vAt l₁ m := by
            intro h
            by_cases hmp : m = p
            · subst hmp; rw [hE]
            · exact hC m h (by omega)
          by_cases hm'r : m' ≤ right
          · have hub : vAt l₁ m' < vAt l right := hD m' (by omega) hm'r
            by_cases hml : m < left
            · rw [hlbm hml]
              obtain ⟨m'', hA, hB, hEq⟩ := originV m' (by omega) hm'r
              rw [hEq]
              exact outer1 m m'' hml hA (by omega)
            · exact le_trans (le_of_lt hub) (hlbm' (by omega))
          · rw [vAt_congr (hhi m' (by omega))]
            by_cases hml : m < left
            · rw [hlbm hml]
              exact outer1 m m' hml (by omega) hm'2
            · obtain ⟨m'', hA, hB, hEq⟩ := originV m (by omega) (by omega)
              rw [hEq]
              exact outer2 m' m'' (by omega) hm'2 hB
        have outer2' : ∀ m m', right < m → m < n → m' ≤ right →
            vAt l₁ m ≤ vAt l₁ m' := by
          intro m m' hm1 hm2 hm3
          rw [vAt_congr (hhi m hm1)]
          by_cases hm'l : m' < left
          · rw [vAt_congr (hlo m' hm'l)]
            exact outer2 m m' hm1 hm2 hm3
          · obtain ⟨m'', hA, hB, hEq⟩ := originV m' (by omega) hm3
            rw [hEq]
            exact outer2 m m'' hm1 hm2 hB
        obtain ⟨l₂, hrec, hlen₂, hperm₂, hfin⟩ :=
          ih l₁ (p + 1) right (by omega) (by omega) hKr hrn (by omega)
            outer1' outer2'
        rw [hq, if_neg h1, if_pos h2]
        exact ⟨l₂, hrec, hlen₂, hperm₂.trans hperm₁, hfin⟩
      · have hpK : p = K := by omega
        subst hpK
        rw [hq, if_neg h1, if_neg h2]
        refine ⟨l₁, rfl, by omega, hperm₁, ?_⟩
        intro i m hiK hKm hmn
        by_cases hil : i < left
        · rw [vAt_congr (hlo i hil)]
          by_cases hmr : m ≤ right
          · obtain ⟨m'', hA, hB, hEq⟩ := originV m (by omega) hmr
            rw [hEq]
            exact outer1 i m'' hil hA (by omega)
          · rw [vAt_congr (hhi m (by omega))]
            exact outer1 i m hil (by omega) hmn
        · have hiC : vAt l right ≤ vAt l₁ i := hC i (by omega) hiK
          by_cases hmr : m ≤ right
          · have hub : m ≤ right → vAt l₁ m ≤ vAt l right := by
              intro hmr'
              by_cases hmp : m = p
              · subst hmp; rw [hE]
              · exact le_of_lt (hD m (by omega) hmr')
            exact le_trans (hub hmr) hiC
          · rw [vAt_congr (hhi m (by omega))]
            obtain ⟨m'', hA, hB, hEq⟩ := originV i (by omega) (by omega)
            rw [hEq]
            exact outer2 m m'' (by omega) hmn hB

/-- Helper: full soundness of `QuickSelect::topk` for `K` strictly below the
number of scores: it returns `K` entries, each carrying an original index and
the score stored there, and every returned score is at least every score whose
index was not returned. -/
theorem topkQuickSelect_spec (K : ℕ) (values : List ℚ) (hK : 1 ≤ K)
    (hN : K < values.length) :
    ∃ out, topkQuickSelect K values = some out ∧ out.length = K ∧
      (∀ e ∈ out, e.1 < values.length ∧ values.getD e.1 0 = e.2) ∧
      (∀ e ∈ out, ∀ j, j < values.length → (∀ e' ∈ out, e'.1 ≠ j) →
        values.getD j 0 ≤ e.2) := by
  set n := values.length with hn
  have hlen : values.enum.length = n := List.enum_length
  obtain ⟨l', hloop, hlen', hperm, hfin⟩ :=
    quickselectLoop_done K n (n + 1) values.enum 0 (n - 1) hlen (by omega)
      (by omega) (by omega) (by omega)
      (fun m m' hm _ _ => absurd hm (by omega))
      (fun m m' hm hm' _ => absurd hm (by omega))
  have hqm : quickselectMax K values.enum = .done l' := by
    rw [quickselectMax, hlen]
    exact hloop
  have hout : topkQuickSelect K values = some (l'.take K) := by
    simp only [topkQuickSelect, hqm]
    rw [if_pos (by omega)]
  have hmem_l : ∀ e ∈ l', e.1 < n ∧ values.getD e.1 0 = e.2 := by
    intro e he
    have he2 : e ∈ values.enum := (hperm.mem_iff).1 he
    obtain ⟨m, hm⟩ := List.mem_iff_getElem?.1 he2
    rw [List.getElem?_enum] at hm
    cases hv : values[m]? with
    | none => rw [hv] at hm; exact Option.noConfusion hm
    | some v =>
      rw [hv] at hm
      have hm' : (m, v) = e := by simpa using hm
      have hmn : m < n := by
        by_contra hcon
        rw [List.getElem?_eq_none (by omega)] at hv
        exact Option.noConfusion hv
      refine ⟨hm' ▸ hmn, ?_⟩
      rw [← hm']
      simp only [List.getD_eq_getElem?_getD, hv, Option.getD_some]
  have hmem_take : ∀ e ∈ l'.take K, ∃ i, i < K ∧ l'[i]? = some e := by
    intro e he
    obtain ⟨i, hi⟩ := List.mem_iff_getElem?.1 he
    rw [List.getElem?_take] at hi
    by_cases hiK : i < K
    · exact ⟨i, hiK, by rw [← hi, if_pos hiK]⟩
    · rw [if_neg hiK] at hi
      exact Option.noConfusion hi
  refine ⟨l'.take K, hout, by rw [List.length_take]; omega, ?_, ?_⟩
  · intro e he
    obtain ⟨i, hiK, hi⟩ := hmem_take e he
    have : e ∈ l' := List.mem_iff_getElem?.2 ⟨i, hi⟩
    exact hmem_l e this
  · intro e he j hj hnotin
    obtain ⟨i, hiK, hi⟩ := hmem_take e he
    have hjm : values.enum[j]? = some (j, values.getD j 0) := by
      rw [List.getElem?_enum, List.getElem?_eq_getElem (by omega)]
      simp only [Option.map_some']
      rw [List.getD_eq_getElem?_getD, List.getElem?_eq_getElem (by omega)]
      simp
    have hmem : (j, values.getD j 0) ∈ l' :=
      (hperm.mem_iff).2 (List.mem_iff_getElem?.2 ⟨j, hjm⟩)
    obtain ⟨pos, hpos⟩ := List.mem_iff_getElem?.1 hmem
    have hposn : pos < n := by
      by_contra hcon
      rw [List.getElem?_eq_none (by omega)] at hpos
      exact Option.noConfusion hpos
    have hposK : K ≤ pos := by
      by_contra hcon
      have hin : (j, values.getD j 0) ∈ l'.take K := by
        apply List.mem_iff_getElem?.2
        exact ⟨pos, by rw [List.getElem?_take, if_pos (by omega)]; exact hpos⟩
      exact (hnotin (j, values.getD j 0) hin) rfl
    have h6 := hfin i pos hiK hposK hposn
    rw [vAt_def, hpos, vAt_def, hi] at h6
    simpa using h6

/-- Helper: with `data.len() = K`, the `quickselect_max` loop drives `left`
up to `K` (each partition returns a pivot `p ≤ K - 1 < K`, taking the
`left = p + 1` branch) and then panics inside `partition_max` on the final
`data.swap(i, pivot)` with `i = K` out of bounds. -/
theorem quickselectLoop_panic (K : ℕ) (hK : 1 ≤ K) :
    ∀ (fuel : ℕ) (l : List QEntry) (left : ℕ),
      l.length = K → left ≤ K → K - left < fuel →
      quickselectLoop K fuel l left (K - 1) = .panicked := by
  intro fuel
  induction fuel with
  | zero =>
    intro l left h1 h2 h3
    omega
  | succ fuel ih =>
    intro l left hlen hleft hf
    by_cases hlK : left = K
    · have hpm : partitionMax l left (K - 1) = none := by
        have hnone : l[left]? = none := List.getElem?_eq_none (by omega)
        simp only [partitionMax]
        have h0 : K - 1 - left = 0 := by omega
        rw [h0, List.range'_zero, List.foldlM_nil]
        simp [listSwap, hnone]
      simp only [quickselectLoop, hpm]
    · have hlK' : left < K := by omega
      obtain ⟨l₁, p, hpm, hpl, hpr, hlen₁, _, _, _, _, _, _, _⟩ :=
        partitionMax_spec l left (K - 1) (vAt l (K - 1)) (by omega) (by omega)
          rfl
      have hq : quickselectLoop K (fuel + 1) l left (K - 1)
          = (if K < p then quickselectLoop K fuel l₁ left (p - 1)
             else if p < K then quickselectLoop K fuel l₁ (p + 1) (K - 1)
             else .done l₁) := by
        simp only [quickselectLoop, hpm]
      have hpK : p < K := by omega
      rw [hq, if_neg (by omega), if_pos hpK]
      exact ih l₁ (p + 1) (by omega) (by omega) (by omega)

/-- Claim C9: for every `K ≥ 1` and every scores slice of length exactly `K`,
the exported `topk` function (the QuickSelect variant) does not return the `K`
entries but panics on an out-of-bounds slice index: `quickselect_max` can only
return when the pivot position equals `K`, which is impossible in a slice of
length `K`, so `left` grows past the end and `partition_max` indexes position
`K`.  `QsOut.panicked` is precisely the model of that out-of-bounds access. -/
theorem c9_topk_panics_on_exact_k (K : ℕ) (scores : List ℚ) (hK : 1 ≤ K)
    (hlen : scores.length = K) :
    quickselectMax K scores.enum = .panicked
      ∧ topkQuickSelect K scores = none := by
  have hlen' : scores.enum.length = K := by rw [List.enum_length, hlen]
  have hqm : quickselectMax K scores.enum = .panicked := by
    rw [quickselectMax, hlen']
    exact quickselectLoop_panic K hK (K + 1) scores.enum 0 hlen' (by omega)
      (by omega)
  refine ⟨hqm, ?_⟩
  simp only [topkQuickSelect, hqm]

/-- Witness for C9 at the concrete input `K = 1`, `scores = [5]`. -/
theorem c9_topk_panics_on_exact_k_witness :
    quickselectMax 1 (([(5 : ℚ)]).enum) = .panicked
      ∧ topkQuickSelect 1 [(5 : ℚ)] = none :=
  c9_topk_panics_on_exact_k 1 [(5 : ℚ)] (by decide) rfl

/-- Counterexample to claim C2 as stated: the claimed contract allows
`N = scores.len() = K`, but at `K = 1`, `scores = [7]` (so `N = 1 ≥ K ≥ 1`)
the QuickSelect `topk` panics (modelled by `none`) instead of returning the
single entry `(0, 7)`. -/
theorem c2_counterexample_len_eq_k : topkQuickSelect 1 [(7 : ℚ)] = none := rfl

/-- Claim C2 (amended: the scores slice must be strictly longer than `K`;
at length exactly `K` the function panics, see `c9`): for every finite scores
slice with `K ≥ 1` and `scores.len() > K`, the exported `topk` (QuickSelect
variant) returns `K` entries, each a pair of an original index with the score
stored at that index, and every returned score is `≥` every score whose index
was not returned. -/
theorem c2_topk_soundness (K : ℕ) (scores : List ℚ) (hK : 1 ≤ K)
    (hN : K < scores.length) :
    ∃ out, topkQuickSelect K scores = some out ∧ out.length = K ∧
      (∀ e ∈ out, e.1 < scores.length ∧ scores.getD e.1 0 = e.2) ∧
      (∀ e ∈ out, ∀ j, j < scores.length → (∀ e' ∈ out, e'.1 ≠ j) →
        scores.getD j 0 ≤ e.2) :=
  topkQuickSelect_spec K scores hK hN

/-- Witness for C2 at the concrete input `K = 2`,
`scores = [30, 3, 1, 12, 2, 11]` (the spec's own top-k example). -/
theorem c2_topk_soundness_witness :
    ∃ out, topkQuickSelect 2 [(30 : ℚ), 3, 1, 12, 2, 11] = some out ∧
      out.length = 2 ∧
      (∀ e ∈ out, e.1 < ([(30 : ℚ), 3, 1, 12, 2, 11]).length ∧
        ([(30 : ℚ), 3, 1, 12, 2, 11]).getD e.1 0 = e.2) ∧
      (∀ e ∈ out, ∀ j, j < ([(30 : ℚ), 3, 1, 12, 2, 11]).length →
        (∀ e' ∈ out, e'.1 ≠ j) → ([(30 : ℚ), 3, 1, 12, 2, 11]).getD j 0 ≤ e.2) :=
  c2_topk_soundness 2 [(30 : ℚ), 3, 1, 12, 2, 11] (by decide) (by decide)

/-- Helper: flattening per-float big-endian quads has length `4 · n`. -/
theorem flatten_map_be32_length (bits : List ℕ) :
    ((bits.map be32).flatten).length = 4 * bits.length := by
  induction bits with
  | nil => simp
  | cons b bs ih =>
    simp only [List.map_cons, List.flatten_cons, List.length_append, ih,
      List.length_cons]
    simp [be32]
    ring

/-- Helper: byte `k` of float `i` inside the flattened quads. -/
theorem flatten_map_be32_getElem? :
    ∀ (bits : List ℕ) (i k : ℕ), k < 4 →
      ((bits.map be32).flatten)[4 * i + k]?
        = bits[i]?.bind (fun x => (be32 x)[k]?) := by
  intro bits
  induction bits with
  | nil => intro i k hk; simp
  | cons b bs ih =>
    intro i k hk
    cases i with
    | zero =>
      simp only [List.map_cons, List.flatten_cons, List.getElem?_append]
      rw [if_pos (by simp [be32]; omega)]
      simp
    | succ i =>
      simp only [List.map_cons, List.flatten_cons]
      rw [List.getElem?_append_right (by simp [be32]; omega)]
      have harith : 4 * (i + 1) + k - (be32 b).length = 4 * i + k := by
        simp [be32]; omega
      rw [harith, ih i k hk]
      simp

/-- Helper: in-bounds `writeBytesAt` keeps the file length. -/
theorem writeBytesAt_length (f : List ℕ) (p : ℕ) (bs : List ℕ)
    (h : p + bs.length ≤ f.length) :
    (writeBytesAt f p bs).length = f.length := by
  simp only [writeBytesAt, List.length_append, List.length_take,
    List.length_drop]
  omega

/-- Helper: reading back a byte of the freshly written region. -/
theorem writeBytesAt_getElem?_mid (f : List ℕ) (p : ℕ) (bs : List ℕ) (m : ℕ)
    (h : p + bs.length ≤ f.length) (h1 : p ≤ m) (h2 : m < p + bs.length) :
    (writeBytesAt f p bs)[m]? = bs[m - p]? := by
  have htake : (f.take p).length = p := by
    simp only [List.length_take]
    omega
  rw [writeBytesAt, List.append_assoc,
    List.getElem?_append_right (by omega : (f.take p).length ≤ m), htake,
    List.getElem?_append]
  rw [if_pos (by omega)]

/-- Claim C3, corrected to big-endian: the header written by `open_write` is
`u32` version `0`, padding `0xFFFFFFFF`, then `N` and `D`, each serialised in
BIG-endian order (tokio's `write_u32`), the file length is
`N·4·D + 16`, and `write_vec` stores the four bytes of each float's bit
pattern in big-endian order at consecutive offsets from the cursor. -/
theorem c3_vecdb_format_bigendian :
    (∀ N D : ℕ, N < 2 ^ 32 → D < 2 ^ 32 →
      (openWrite N D).file.length = N * 4 * D + 16 ∧
      (openWrite N D).file.take 16
        = (be32 0 ++ be32 (2 ^ 32 - 1)) ++ (be32 N ++ be32 D)) ∧
    (∀ (db : VecDb) (bits : List ℕ), bits.length = db.numDimensions →
      db.pos + 4 * bits.length ≤ db.file.length →
      ∀ i k, i < bits.length → k < 4 →
        (writeVec db bits).map (fun db' => db'.file[db.pos + 4 * i + k]?)
          = some ((be32 (bits.getD i 0))[k]?)) := by
  constructor
  · intro N D hN hD
    have hmodN : N % 2 ^ 32 = N := Nat.mod_eq_of_lt hN
    have hmodD : D % 2 ^ 32 = D := Nat.mod_eq_of_lt hD
    have hhead : (be32 0 ++ be32 (2 ^ 32 - 1) ++ be32 (N % 2 ^ 32)
        ++ be32 (D % 2 ^ 32)).length = 16 := by
      simp [be32]
    constructor
    · rw [openWrite]
      rw [writeBytesAt_length _ _ _ (by simp [be32])]
      simp
    · rw [openWrite]
      simp only [writeBytesAt, Nat.zero_add, List.take_zero, List.nil_append]
      rw [List.take_left' hhead, hmodN, hmodD]
      simp [List.append_assoc]
  · intro db bits hblen hroom i k hi hk
    have hflat : ((bits.map be32).flatten).length = 4 * bits.length :=
      flatten_map_be32_length bits
    rw [writeVec, if_pos hblen]
    simp only [Option.map_some']
    rw [writeBytesAt_getElem?_mid _ _ _ _ (by omega) (by omega) (by omega)]
    have harith : db.pos + 4 * i + k - db.pos = 4 * i + k := by omega
    rw [harith, flatten_map_be32_getElem? bits i k hk,
      List.getElem?_eq_getElem (show i < bits.length by omega)]
    simp only [Option.some_bind]
    rw [List.getD_eq_getElem?_getD,
      List.getElem?_eq_getElem (show i < bits.length by omega)]
    simp

set_option maxRecDepth 100000 in
/-- Counterexample to claim C3 as stated: after `open_write(path, N=2, D=16)`
and writing two unit vectors `[1.0, 0, …, 0]` (bit pattern `0x3F800000`), the
file is indeed 144 bytes, but its first 16 bytes are the BIG-endian sequence
`00 00 00 00 FF FF FF FF 00 00 00 02 00 00 00 10`, not the little-endian
sequence the claim states. -/
theorem c3_counterexample_little_endian :
    ((writeVec (openWrite 2 16) (1065353216 :: List.replicate 15 0)).bind
        (fun db1 => writeVec db1 (1065353216 :: List.replicate 15 0))).map
        (fun db => (db.file.length, db.file.take 16))
      = some (144, [0, 0, 0, 0, 255, 255, 255, 255, 0, 0, 0, 2, 0, 0, 0, 16])
    ∧ ((writeVec (openWrite 2 16) (1065353216 :: List.replicate 15 0)).bind
        (fun db1 => writeVec db1 (1065353216 :: List.replicate 15 0))).map
        (fun db => db.file.take 16)
      ≠ some [0, 0, 0, 0, 255, 255, 255, 255, 2, 0, 0, 0, 16, 0, 0, 0] := by
  constructor
  · rfl
  · decide

set_option maxRecDepth 100000 in
/-- Witness for C3: the header part applied at `N = 2`, `D = 16`, and the
float-byte part applied to the first float of a `write_vec` on that fresh
database. -/
theorem c3_vecdb_format_bigendian_witness :
    ((openWrite 2 16).file.length = 2 * 4 * 16 + 16 ∧
      (openWrite 2 16).file.take 16
        = (be32 0 ++ be32 (2 ^ 32 - 1)) ++ (be32 2 ++ be32 16)) ∧
    (writeVec (openWrite 2 16) (1065353216 :: List.replicate 15 0)).map
        (fun db' => db'.file[(openWrite 2 16).pos + 4 * 0 + 0]?)
      = some ((be32 ((1065353216 :: List.replicate 15 0).getD 0 0))[0]?) :=
  ⟨c3_vecdb_format_bigendian.1 2 16 (by decide) (by decide),
    c3_vecdb_format_bigendian.2 (openWrite 2 16)
      (1065353216 :: List.replicate 15 0) (by decide) (by decide) 0 0
      (by decide) (by decide)⟩

set_option maxRecDepth 400000 in
/-- Claim C4 at the failing input: reading `c4Db` with a callback that
returns `false` on its 10th invocation (`v = 9`) returns the count `10`, as
the claim says, but leaves the cursor at `16 + 9·stride` (the `pos`
increment after the callback is skipped by the early `return Ok(v + 1)`), so
the next `read_vec` re-reads the vector at index `9` instead of index `10`
as the claim states. -/
theorem c4_cursor_stays_on_cancelled_vector :
    (readAllVecs c4Db (fun v _ => decide (v < 9))).map (fun r => (r.1, r.2.pos))
        = some (10, 16 + 9 * 4)
    ∧ ((readAllVecs c4Db (fun v _ => decide (v < 9))).bind
        (fun r => readVec r.2)).map (fun r => r.1) = some [9]
    ∧ ((readAllVecs c4Db (fun v _ => decide (v < 9))).bind
        (fun r => readVec r.2)).map (fun r => r.1) ≠ some [10] := by
  refine ⟨rfl, rfl, by decide⟩

/-- Helper: overwriting the entry of key `id` keeps `find?` successful. -/
theorem find?_isSome_map_overwrite (id v : ℕ) :
    ∀ (reg : List (ℕ × ℕ)), (List.find? (fun e => e.1 == id) reg).isSome →
      (List.find? (fun e => e.1 == id)
          (reg.map (fun e => if e.1 == id then (id, v) else e))).isSome := by
  intro reg
  induction reg with
  | nil => intro h; simp at h
  | cons e t ih =>
    intro h
    by_cases hk : e.1 = id
    · rw [List.map_cons, if_pos (show (e.1 == id) = true by simpa using hk)]
      rw [List.find?_cons_of_pos _ (by simp)]
      simp
    · rw [List.map_cons, if_neg (show ¬(e.1 == id) = true by simpa using hk)]
      rw [List.find?_cons_of_neg _ (by simpa using hk)]
      rw [List.find?_cons_of_neg _ (by simpa using hk)] at h
      exact ih h

/-- Helper: the registry contains a key right after inserting it. -/
theorem regContains_regInsert_self (reg : List (ℕ × ℕ)) (id v : ℕ) :
    regContains (regInsert reg id v).1 id = true := by
  rw [regInsert]
  cases h : regGet reg id with
  | none =>
    simp only [regContains, regGet, List.find?_append]
    cases hfind : List.find? (fun e => e.1 == id) reg with
    | some e => rw [regGet, hfind] at h; exact Option.noConfusion h
    | none => simp [List.find?]
  | some old =>
    have hsome : (List.find? (fun e => e.1 == id) reg).isSome := by
      rw [regGet] at h
      cases hf : List.find? (fun e => e.1 == id) reg with
      | none => rw [hf] at h; exact Option.noConfusion h
      | some e => simp
    simp only [regContains, regGet]
    simpa using find?_isSome_map_overwrite id v reg hsome

/-- Helper: a successful `register_vector` leaves the id registered. -/
theorem registerVector_success_registry (m : BaseChunkManager) (id : ℕ)
    (wf : ℕ → List ℚ → List ℚ) (m₁ : BaseChunkManager)
    (h : registerVector m id wf = (m₁, none)) :
    regContains m₁.registry id = true := by
  simp only [registerVector] at h
  split at h
  · exact absurd (congrArg Prod.snd h) (by simp)
  · split at h
    · exact absurd (congrArg Prod.snd h) (by simp)
    · have h2 := congrArg Prod.fst h
      simp only at h2
      rw [← h2]
      exact regContains_regInsert_self _ id _

/-- Claim C5: a second `insert_vector` with an already-inserted id (and a
vector of the correct length) returns `DuplicateId` and returns the manager
state unchanged -- registry, slot assignments, chunks and hence `max_vecs()`
are all exactly the state `m₁` produced by the first successful insertion. -/
theorem c5_insert_duplicate_id (m m₁ : BaseChunkManager) (id : ℕ)
    (v w : List ℚ) (h1 : insertVector m id v = (m₁, none))
    (hw : w.length = m₁.numDims) :
    insertVector m₁ id w = (m₁, some (.duplicateId id)) := by
  have hreg : regContains m₁.registry id = true := by
    rw [insertVector] at h1
    split at h1
    · exact absurd (congrArg Prod.snd h1) (by simp)
    · exact registerVector_success_registry _ _ _ _ h1
  rw [insertVector, if_neg (by omega), registerVector, if_pos hreg]

/-- Witness for C5: duplicate insertion of id `1` into a small manager
(chunk size 32 floats, `D = 16`). -/
theorem c5_insert_duplicate_id_witness :
    insertVector
        (insertVector (BaseChunkManager.new 32 16) 1 (List.replicate 16 1)).1
        1 (List.replicate 16 1)
      = ((insertVector (BaseChunkManager.new 32 16) 1 (List.replicate 16 1)).1,
          some (.duplicateId 1)) :=
  c5_insert_duplicate_id (BaseChunkManager.new 32 16) _ 1 (List.replicate 16 1)
    (List.replicate 16 1) rfl (by decide)

/-- Claim C10: a wrong-length vector is rejected with
`DimensionalityMismatch` even when the id is already registered -- the length
check runs before the duplicate check, and the returned state is the
untouched input manager. -/
theorem c10_dimensionality_mismatch_first (m : BaseChunkManager) (id : ℕ)
    (v : List ℚ) (hlen : v.length ≠ m.numDims)
    (_hdup : regContains m.registry id = true) :
    insertVector m id v
      = (m, some (.dimensionalityMismatch m.numDims v.length)) := by
  rw [insertVector, if_pos hlen]

/-- Witness for C10: id `1` is registered, but a 3-element vector against
`D = 16` still reports `DimensionalityMismatch`. -/
theorem c10_dimensionality_mismatch_first_witness :
    insertVector
        (insertVector (BaseChunkManager.new 32 16) 1 (List.replicate 16 1)).1
        1 [1, 2, 3]
      = ((insertVector (BaseChunkManager.new 32 16) 1 (List.replicate 16 1)).1,
          some (.dimensionalityMismatch 16 3)) :=
  c10_dimensionality_mismatch_first _ 1 [1, 2, 3] (by decide) (by decide)

/-- Claim C6: a manager for dimensionality `D` holds
`vectors_per_chunk = ⌊CHUNK_FLOATS / D⌋` vectors per chunk (`21 845` for
`D = 384` with power-of-two chunks), starts with one chunk, and
`max_vecs()` always equals `num_chunks · vectors_per_chunk`; when the single
existing chunk is full, inserting a fresh vector allocates exactly one new
chunk (1 → 2), places the vector at slot 0 of the new chunk (both the float
data at offset 0 and the id in slot 0 of the new assignment row), and
`max_vecs()` becomes `2 · vectors_per_chunk`. -/
theorem c6_chunk_allocation :
    (∀ chunkFloats D : ℕ,
      (BaseChunkManager.new chunkFloats D).numVecsPerChunk = chunkFloats / D ∧
      (BaseChunkManager.new chunkFloats D).chunks.length = 1 ∧
      (BaseChunkManager.new chunkFloats D).maxVecs = chunkFloats / D) ∧
    CHUNK_NUM_FLOATS_POW2 / 384 = 21845 ∧
    (∀ m : BaseChunkManager,
      m.maxVecs = m.chunks.length * m.numVecsPerChunk) ∧
    (∀ (m : BaseChunkManager) (id : ℕ) (v : List ℚ),
      m.chunks.length = 1 → m.assignments.length = 1 →
      (m.assignments.getD 0 ⟨0, []⟩).isFull = true →
      0 < m.numVecsPerChunk →
      regContains m.registry id = false →
      v.length = m.numDims →
      (insertVector m id v).2 = none ∧
      (insertVector m id v).1.chunks.length = 2 ∧
      (insertVector m id v).1.maxVecs = 2 * m.numVecsPerChunk ∧
      ((insertVector m id v).1.chunks.getD 1 []).take v.length = v ∧
      ((insertVector m id v).1.assignments.getD 1 ⟨0, []⟩).assignments.getD 0
          none = some id) := by
  refine ⟨fun chunkFloats D => ⟨rfl, rfl, by simp [BaseChunkManager.new,
    BaseChunkManager.maxVecs]⟩, by decide, fun m => rfl, ?_⟩
  intro m id v h1 h2 hfull hvpc hfresh hv
  have hregget : regGet m.registry id = none := by
    rw [regContains] at hfresh
    cases hg : regGet m.registry id with
    | none => rfl
    | some x => rw [hg] at hfresh; simp at hfresh
  have hens : ensureChunkWithCapacity m
      = ({ m with
            chunks := m.chunks ++ [List.replicate m.chunkNumFloats 0]
            assignments := m.assignments
              ++ [IndexVectorAssignment.new m.numVecsPerChunk] },
          1, true) := by
    simp only [ensureChunkWithCapacity, h1, hfull]
    simp [List.length_append, h1]
  have hasg : (m.assignments
        ++ [IndexVectorAssignment.new m.numVecsPerChunk])[1]?
      = some (IndexVectorAssignment.new m.numVecsPerChunk) := by
    rw [← h2, List.getElem?_concat_length]
  have hchunk : (m.chunks ++ [List.replicate m.chunkNumFloats 0])[1]?
      = some (List.replicate m.chunkNumFloats 0) := by
    rw [← h1, List.getElem?_concat_length]
  have hresult : insertVector m id v
      = ({ m with
            registry := m.registry ++ [(id, 1)]
            chunks := (m.chunks ++ [List.replicate m.chunkNumFloats 0]).set 1
              (copyFromSlice (List.replicate m.chunkNumFloats 0) 0 v)
            assignments := (m.assignments
              ++ [IndexVectorAssignment.new m.numVecsPerChunk]).set 1
              ((IndexVectorAssignment.new m.numVecsPerChunk).replace 0
                (some id)).1 },
          none) := by
    rw [insertVector, if_neg (fun hc => hc hv)]
    simp only [registerVector, hens, regInsert, hregget]
    rw [if_neg (by simp [hfresh])]
    simp only [List.getD_eq_getElem?_getD, hasg, hchunk, Option.getD_some,
      show (IndexVectorAssignment.new m.numVecsPerChunk).count = 0 from rfl,
      Nat.zero_mul]
  rw [hresult]
  refine ⟨rfl, by simp [h1], by simp [BaseChunkManager.maxVecs, h1], ?_, ?_⟩
  · dsimp only
    rw [List.getD_eq_getElem?_getD, List.getElem?_set_self (by simp [h1])]
    simp only [Option.getD_some]
    rw [copyFromSlice, List.take_zero, List.nil_append, Nat.zero_add,
      List.take_left' rfl]
  · dsimp only
    simp only [List.getD_eq_getElem?_getD]
    rw [List.getElem?_set_self (by simp [h2])]
    simp only [Option.getD_some, IndexVectorAssignment.replace,
      IndexVectorAssignment.new]
    rw [List.getElem?_set_self (by simp [hvpc])]
    simp

/-- Witness for C6: inserting a third vector into the full two-slot manager
allocates the second chunk and lands in its slot 0. -/
theorem c6_chunk_allocation_witness :
    (insertVector c6Manager 3 (List.replicate 16 2)).2 = none ∧
    (insertVector c6Manager 3 (List.replicate 16 2)).1.chunks.length = 2 ∧
    (insertVector c6Manager 3 (List.replicate 16 2)).1.maxVecs
      = 2 * c6Manager.numVecsPerChunk ∧
    ((insertVector c6Manager 3 (List.replicate 16 2)).1.chunks.getD 1 []).take
        (List.replicate 16 (2 : ℚ)).length = List.replicate 16 2 ∧
    ((insertVector c6Manager 3 (List.replicate 16 2)).1.assignments.getD 1
        ⟨0, []⟩).assignments.getD 0 none = some 3 :=
  c6_chunk_allocation.2.2.2 c6Manager 3 (List.replicate 16 2) rfl rfl rfl
    (by decide) rfl rfl

/-- Claim C7 at the failing input: a chunk built for `N = 2`, `D = 16`
narrowed with `use_num_vecs(5)` reports a virtual count of `5`, because the
code clamps against `data.len()` (the allocation length, `128` bytes here)
instead of the construction-time vector count `2`; the claim's `min(5, 2) = 2`
does not hold, and the virtual count exceeds `N`. -/
theorem c7_use_num_vecs_not_clamped_to_n :
    (AnySizeMemoryChunk.new 2 16).map (fun c => (useNumVecs c 5).virtNumVecs)
        = some 5
    ∧ (AnySizeMemoryChunk.new 2 16).map (fun c => c.numVecs) = some 2
    ∧ some 5 ≠ some (min 5 2) := by
  refine ⟨rfl, rfl, by decide⟩

/-- Counterexample to claim C8 as stated: `as_transposed` keeps the same
`(num_dims, num_vecs)` orientation for the second transposition, so for
`N = 2 ≠ D = 16` the double transpose shuffles the buffer instead of
restoring it: element 1 becomes `8` instead of `1`. -/
theorem c8_counterexample_transpose_not_involutive :
    (asTransposed (asTransposed c8Chunk)).data.getD 1 0 = 8
    ∧ c8Chunk.data.getD 1 0 = 1
    ∧ (asTransposed (asTransposed c8Chunk)).data ≠ c8Chunk.data := by
  refine ⟨rfl, rfl, by decide⟩

/-- Helper: length of the transposed buffer. -/
theorem transposeList_length (src : List ℚ) (w h : ℕ) :
    (transposeList src w h).length = w * h := by
  simp [transposeList]

/-- Helper: entry `k` of the transposed buffer. -/
theorem transposeList_getElem? (src : List ℚ) (w h k : ℕ) (hk : k < w * h) :
    (transposeList src w h)[k]?
      = some (src.getD ((k % h) * w + (k / h)) 0) := by
  rw [transposeList, List.getElem?_map, List.getElem?_range hk]
  simp

/-- Helper: transposing a square `n × n` buffer twice restores it. -/
theorem transposeList_involutive (src : List ℚ) (n : ℕ)
    (hlen : src.length = n * n) :
    transposeList (transposeList src n n) n n = src := by
  apply List.ext_getElem?
  intro k
  by_cases hk : k < n * n
  · have hn : 0 < n := by
      rcases Nat.eq_zero_or_pos n with h | h
      · subst h; simp at hk
      · exact h
    have hdiv : k / n < n := (Nat.div_lt_iff_lt_mul hn).2 hk
    have hmod : k % n < n := Nat.mod_lt k hn
    have hidx : (k % n) * n + k / n < n * n := by
      calc (k % n) * n + k / n < (k % n) * n + n := by omega
      _ = (k % n + 1) * n := by ring
      _ ≤ n * n := Nat.mul_le_mul_right n (by omega)
    rw [transposeList_getElem? _ _ _ _ hk,
      List.getD_eq_getElem?_getD, transposeList_getElem? _ _ _ _ hidx]
    have hmod2 : ((k % n) * n + k / n) % n = k / n := by
      rw [Nat.add_comm, Nat.add_mul_mod_self_right, Nat.mod_eq_of_lt hdiv]
    have hdiv2 : ((k % n) * n + k / n) / n = k % n := by
      rw [Nat.add_comm, Nat.add_mul_div_right _ _ hn, Nat.div_eq_of_lt hdiv,
        Nat.zero_add]
    rw [hmod2, hdiv2]
    have hfin : (k / n) * n + k % n = k := by
      rw [Nat.mul_comm]
      exact Nat.div_add_mod k n
    rw [hfin, Option.getD_some, List.getD_eq_getElem?_getD,
      List.getElem?_eq_getElem (show k < src.length by omega)]
    simp
  · rw [List.getElem?_eq_none, List.getElem?_eq_none (by omega)]
    rw [transposeList_length]
    omega

/-- Claim C8, corrected: a single `as_transposed` satisfies the pivot
post-conditions `dst[0] == src[0]` and `dst[N] == src[1]` for `N > 1`,
`D > 1`, and the double transpose restores the buffer when `N = D`; for
`N ≠ D` it does not in general (see the counterexample), because the second
call transposes with the same `(num_dims, num_vecs)` pair instead of the
swapped one. -/
theorem c8_transpose_properties :
    (∀ c : AnySizeMemoryChunk, 1 < c.numVecs → 1 < c.numDims →
      c.data.length = c.numVecs * c.numDims →
      (asTransposed c).data.getD 0 0 = c.data.getD 0 0 ∧
      (asTransposed c).data.getD c.numVecs 0 = c.data.getD 1 0) ∧
    (∀ c : AnySizeMemoryChunk, c.numDims = c.numVecs →
      c.data.length = c.numVecs * c.numDims →
      (asTransposed (asTransposed c)).data = c.data) := by
  constructor
  · intro c hN hD hlen
    have hpos : 0 < c.numDims * c.numVecs := by positivity
    constructor
    · rw [asTransposed]
      rw [List.getD_eq_getElem?_getD, transposeList_getElem? _ _ _ _ hpos]
      simp
    · have hlt : c.numVecs < c.numDims * c.numVecs := by
        calc c.numVecs = 1 * c.numVecs := (Nat.one_mul _).symm
        _ < c.numDims * c.numVecs :=
          (Nat.mul_lt_mul_right (by omega)).2 (by omega)
      rw [asTransposed]
      rw [List.getD_eq_getElem?_getD, transposeList_getElem? _ _ _ _ hlt]
      rw [Nat.mod_self, Nat.zero_mul, Nat.zero_add,
        Nat.div_self (by omega : 0 < c.numVecs)]
      simp
  · intro c hsq hlen
    show transposeList (transposeList c.data c.numDims c.numVecs)
        c.numDims c.numVecs = c.data
    rw [hsq]
    exact transposeList_involutive c.data c.numVecs (by rw [hlen, hsq])

/-- Witness for C8: the pivot post-conditions at the `2 × 16` chunk and the
square involution at the `2 × 2` chunk. -/
theorem c8_transpose_properties_witness :
    ((asTransposed c8Chunk).data.getD 0 0 = c8Chunk.data.getD 0 0 ∧
      (asTransposed c8Chunk).data.getD c8Chunk.numVecs 0
        = c8Chunk.data.getD 1 0) ∧
    (asTransposed (asTransposed c8Square)).data = c8Square.data :=
  ⟨c8_transpose_properties.1 c8Chunk (by decide) (by decide) (by decide),
    c8_transpose_properties.2 c8Square rfl (by decide)⟩

end RustKNN
